import Mathlib

/-!
Verification of the `gluesql-encryption` crate: a transparent field-level
AEAD encryption layer over a row store.

The development shallowly embeds the Rust sources:
* `src/encdec.rs` — `encrypt_value_in_place`, `encrypt_row_in_place`,
  `decrypt_value_in_place`, `decrypt_row_in_place`;
* `src/lib.rs` — `Error`, `EncryptedStore`, `change_key`, `insert_data`,
  `append_data`;
* `src/test_utils.rs` — the random nonce sequencer `RandNonce`.

External collaborators are modelled executably:
* the `postcard` codec is modelled by a concrete self-describing serializer
  over a representative subset of gluesql `Value` (tag byte, LEB128 varints,
  zigzag signed integers), matching postcard's shape: `from_bytes` parses a
  value from the front of the buffer and ignores trailing bytes;
* the `ring` AES-256-GCM AEAD (`LessSafeKey`) is modelled by an executable
  idealized cipher with the interface contract the code relies on:
  12-byte nonces, 16-byte tags, the tag computed over the ciphertext and
  the associated data, `open` failing when the input is shorter than the
  tag or the tag does not match, and `open ∘ seal` returning the plaintext.
  Key material is a `Nat`.

Machine integers do not overflow on any path used here; the i64 payload of
`Value::I64` is modelled as `Int` (the claims do not involve i64 range).
-/

namespace GluesqlEncryption

/-- A byte, as stored in the buffers handled by the crate. -/
abbrev Byte := Fin 256

/-! ### Model of the postcard codec (LEB128 varints, zigzag, tagged values) -/

/-- LEB128 varint encoding of a `Nat` (model of postcard's unsigned varint). -/
def varNat (n : Nat) : List Byte :=
  if h : n < 128 then [⟨n, by omega⟩]
  else ⟨n % 128 + 128, by omega⟩ :: varNat (n / 128)
termination_by n
decreasing_by
  exact Nat.div_lt_self (by omega) (by omega)

/-- LEB128 varint decoding; returns the decoded `Nat` and the remaining bytes. -/
def parseNat : List Byte → Option (Nat × List Byte)
  | [] => none
  | b :: rest =>
    if b.val < 128 then some (b.val, rest)
    else
      match parseNat rest with
      | none => none
      | some (m, r) => some ((b.val - 128) + 128 * m, r)

theorem parseNat_varNat (n : Nat) (rest : List Byte) :
    parseNat (varNat n ++ rest) = some (n, rest) := by
  induction n using Nat.strong_induction_on with
  | _ n ih =>
    rw [varNat]
    by_cases h : n < 128
    · simp [h, parseNat]
    · rw [dif_neg h]
      simp only [List.cons_append, List.append_eq, parseNat]
      have h1 : ¬ ((⟨n % 128 + 128, by omega⟩ : Byte).val < 128) := by
        show ¬ (n % 128 + 128 < 128)
        omega
      rw [if_neg h1]
      rw [ih (n / 128) (Nat.div_lt_self (by omega) (by omega))]
      simp only [Option.some.injEq, Prod.mk.injEq]
      refine ⟨?_, trivial⟩
      show n % 128 + 128 - 128 + 128 * (n / 128) = n
      have := Nat.mod_add_div n 128
      omega

/-- Zigzag encoding of a signed integer (model of postcard's i64 encoding). -/
def zigzag (i : Int) : Nat :=
  if 0 ≤ i then 2 * i.toNat else 2 * (-i).toNat - 1

/-- Zigzag decoding. -/
def unzigzag (n : Nat) : Int :=
  if n % 2 = 0 then ((n / 2 : Nat) : Int) else -(((n / 2 : Nat) : Int) + 1)

theorem unzigzag_zigzag (i : Int) : unzigzag (zigzag i) = i := by
  unfold zigzag unzigzag
  by_cases h : 0 ≤ i
  · rw [if_pos h]
    have h2 : (2 * i.toNat) % 2 = 0 := by omega
    rw [if_pos h2]
    omega
  · rw [if_neg h]
    have h1 : 1 ≤ (-i).toNat := by omega
    have h2 : ¬ ((2 * (-i).toNat - 1) % 2 = 0) := by omega
    rw [if_neg h2]
    omega

/-- Model of the gluesql `Value` enum, restricted to a representative subset of
variants.  The crate's code treats `Value` opaquely apart from the binary
variant `Bytea`, which carries the encrypted at-rest blob; text content is
modelled by its UTF-8 bytes. -/
inductive Value where
  | Null
  | Boolean (b : Bool)
  | I64 (i : Int)
  | Str (s : List Byte)
  | Bytea (b : List Byte)
deriving DecidableEq, Repr

/-- Whether a value is the binary/opaque (`Bytea`) variant. -/
def Value.isBytea : Value → Bool
  | .Bytea _ => true
  | _ => false

/-- Model of postcard serialization of a `Value`: a variant tag byte followed
by the payload (varint lengths for the byte-carrying variants). -/
def serializeValue : Value → List Byte
  | .Null => [0]
  | .Boolean b => [1, if b then 1 else 0]
  | .I64 i => 2 :: varNat (zigzag i)
  | .Str s => 3 :: (varNat s.length ++ s)
  | .Bytea b => 4 :: (varNat b.length ++ b)

/-- Model of postcard deserialization: parses one `Value` from the front of
the buffer and returns the remaining bytes. -/
def parseValue (l : List Byte) : Option (Value × List Byte) :=
  match l with
  | [] => none
  | t :: rest =>
    if t.val = 0 then some (.Null, rest)
    else if t.val = 1 then
      match rest with
      | [] => none
      | b :: rest2 =>
        if b.val = 0 then some (.Boolean false, rest2)
        else if b.val = 1 then some (.Boolean true, rest2)
        else none
    else if t.val = 2 then
      match parseNat rest with
      | none => none
      | some (m, r) => some (.I64 (unzigzag m), r)
    else if t.val = 3 then
      match parseNat rest with
      | none => none
      | some (len, r) =>
        if len ≤ r.length then some (.Str (r.take len), r.drop len) else none
    else if t.val = 4 then
      match parseNat rest with
      | none => none
      | some (len, r) =>
        if len ≤ r.length then some (.Bytea (r.take len), r.drop len) else none
    else none

/-- Model of `postcard::from_bytes`: deserializes a value from the front of a
byte slice, ignoring any trailing bytes. -/
def from_bytes (l : List Byte) : Option Value :=
  (parseValue l).map Prod.fst

theorem parseValue_serializeValue (v : Value) (rest : List Byte) :
    parseValue (serializeValue v ++ rest) = some (v, rest) := by
  cases v with
  | Null => simp [serializeValue, parseValue]
  | Boolean b => cases b <;> simp [serializeValue, parseValue]
  | I64 i =>
    simp [serializeValue, parseValue, parseNat_varNat, unzigzag_zigzag]
  | Str s =>
    simp only [serializeValue, List.cons_append, List.append_assoc, parseValue]
    rw [if_neg (by decide), if_neg (by decide), if_neg (by decide),
      if_pos (by decide), parseNat_varNat]
    simp only [List.take_left, List.drop_left, List.length_append]
    rw [if_pos (Nat.le_add_right _ _)]
  | Bytea b =>
    simp only [serializeValue, List.cons_append, List.append_assoc, parseValue]
    rw [if_neg (by decide), if_neg (by decide), if_neg (by decide),
      if_neg (by decide), if_pos (by decide), parseNat_varNat]
    simp only [List.take_left, List.drop_left, List.length_append]
    rw [if_pos (Nat.le_add_right _ _)]

/-! ### Model of the ring AES-256-GCM AEAD (`LessSafeKey`)

The algorithm constants are those of `AES_256_GCM`: `nonce_len = 12`,
`tag_len = 16`.  The cipher itself is an executable idealized model: a
key/nonce-derived byte stream added to the plaintext, and a 16-byte tag
deterministically derived from the key, nonce, associated data and
ciphertext.  `aeadOpen` mirrors `open_in_place`: it fails when the input is
shorter than the tag or when the recomputed tag does not match, and on
success the in-place buffer holds the plaintext followed by the (unused)
tag bytes. -/

/-- Interpret a byte list as a natural number (big-endian), used to mix
inputs into the idealized cipher. -/
def bytesToNat (l : List Byte) : Nat :=
  List.foldl (fun a b => a * 256 + b.val) 0 l

/-- The idealized key/nonce stream byte at position `i`. -/
def ksByte (key : Nat) (nonce : List Byte) (i : Nat) : Byte :=
  ⟨(key + bytesToNat nonce + i * 131) % 256, by omega⟩

/-- In-place sealing of a byte buffer starting at stream position `i`. -/
def sealBytes (key : Nat) (nonce : List Byte) : Nat → List Byte → List Byte
  | _, [] => []
  | i, b :: t => (b + ksByte key nonce i) :: sealBytes key nonce (i + 1) t

/-- In-place opening (inverse of `sealBytes`). -/
def openBytes (key : Nat) (nonce : List Byte) : Nat → List Byte → List Byte
  | _, [] => []
  | i, b :: t => (b - ksByte key nonce i) :: openBytes key nonce (i + 1) t

theorem sealBytes_length (key : Nat) (nonce : List Byte) (i : Nat)
    (l : List Byte) : (sealBytes key nonce i l).length = l.length := by
  induction l generalizing i with
  | nil => rfl
  | cons b t ih => simp [sealBytes, ih]

theorem openBytes_sealBytes (key : Nat) (nonce : List Byte) (i : Nat)
    (l : List Byte) : openBytes key nonce i (sealBytes key nonce i l) = l := by
  induction l generalizing i with
  | nil => rfl
  | cons b t ih => simp [sealBytes, openBytes, ih]

/-- The 16-byte authentication tag of the idealized AEAD, computed over the
key, nonce, associated data and ciphertext. -/
def tagOf (key : Nat) (nonce aad ct : List Byte) : List Byte :=
  (List.range 16).map fun i =>
    ⟨(key + 3 * bytesToNat nonce + 5 * bytesToNat aad + 7 * bytesToNat ct
        + 11 * ct.length + i) % 256, by omega⟩

theorem tagOf_length (key : Nat) (nonce aad ct : List Byte) :
    (tagOf key nonce aad ct).length = 16 := by
  simp [tagOf]

/-- Model of `seal_in_place_separate_tag`: returns the ciphertext and the
authentication tag. -/
def aeadSeal (key : Nat) (nonce aad pt : List Byte) : List Byte × List Byte :=
  let ct := sealBytes key nonce 0 pt
  (ct, tagOf key nonce aad ct)

/-- Model of `open_in_place` on a buffer holding `ciphertext ‖ tag`: fails
(`none`, ring's `Unspecified`) when the buffer is shorter than the tag or
the tag does not verify; on success returns the whole in-place buffer,
i.e. the plaintext followed by the tag bytes. -/
def aeadOpen (key : Nat) (nonce aad data : List Byte) : Option (List Byte) :=
  if data.length < 16 then none
  else
    let ct := data.take (data.length - 16)
    let tg := data.drop (data.length - 16)
    if tagOf key nonce aad ct = tg then some (openBytes key nonce 0 ct ++ tg)
    else none

theorem aeadOpen_aeadSeal (key : Nat) (nonce aad pt : List Byte) :
    aeadOpen key nonce aad
        ((aeadSeal key nonce aad pt).1 ++ (aeadSeal key nonce aad pt).2) =
      some (pt ++ (aeadSeal key nonce aad pt).2) := by
  unfold aeadSeal aeadOpen
  simp only [List.length_append, sealBytes_length, tagOf_length]
  rw [if_neg (by omega)]
  have hlen : pt.length + 16 - 16 = (sealBytes key nonce 0 pt).length := by
    rw [sealBytes_length]
    omega
  rw [hlen, List.take_left, List.drop_left, if_pos rfl, openBytes_sealBytes]

/-! ### Nonce sequencers -/

/-- A 12-byte AEAD nonce (`AES_256_GCM.nonce_len = 12`). -/
abbrev Nonce := Mathlib.Vector Byte 12

/-- Model of a generic `ring::aead::NonceSequence`: a source of nonces
indexed by how many nonces were drawn so far; `gen` returning `none`
models `advance` failing with `Unspecified`. -/
structure NonceSeq where
  gen : Nat → Option Nonce
  pos : Nat

/-- `NonceSequence::advance`: draw the next nonce and step the state. -/
def NonceSeq.advance (ns : NonceSeq) : Option (Nonce × NonceSeq) :=
  match ns.gen ns.pos with
  | none => none
  | some n => some (n, ⟨ns.gen, ns.pos + 1⟩)

/-- Model of `test_utils::RandNonce`: a ChaCha20 RNG, modelled as the
deterministic byte stream it produces, plus the number of `advance` calls
made so far (each call fills a fresh 12-byte nonce from the stream). -/
structure RandNonce where
  stream : Nat → Byte
  pos : Nat

/-- The nonce produced by the `i`-th `advance` call of a `RandNonce` with
byte stream `s`: the 12 stream bytes at offsets `12*i .. 12*i+11`. -/
def RandNonce.nonceAt (s : Nat → Byte) (i : Nat) : Nonce :=
  ⟨(List.range 12).map fun j => s (12 * i + j), by simp⟩

/-- `RandNonce::advance`: always succeeds, filling 12 fresh random bytes. -/
def RandNonce.advance (r : RandNonce) : Nonce × RandNonce :=
  (RandNonce.nonceAt r.stream r.pos, ⟨r.stream, r.pos + 1⟩)

/-- A `RandNonce` viewed as a generic `NonceSequence` (its `advance` never
fails). -/
def RandNonce.toSeq (r : RandNonce) : NonceSeq :=
  ⟨fun i => some (RandNonce.nonceAt r.stream i), r.pos⟩

/-- The nonces produced by the first `N` calls to `advance` of a
`RandNonce` with byte stream `s`, starting from a fresh state. -/
def randNonceList (s : Nat → Byte) (N : Nat) : List Nonce :=
  (List.range N).map (RandNonce.nonceAt s)

/-! ### `src/lib.rs`: the `Error` enum -/

/-- The crate's `Error` enum (`src/lib.rs` lines 21–31).  Payloads (the
wrapped `postcard::Error` / gluesql error) are not inspected by the crate
and are dropped; `ring::error::Unspecified` converts to
`EncryptionError` (the `From` impl at lines 33–37). -/
inductive Error where
  | SerializationError
  | StoreError
  | EncryptionError
  | InvalidValue
deriving DecidableEq, Repr

/-- Outcome of running a Rust function that may also panic (used for
`decrypt_value_in_place`, whose `split_at_mut(nonce_len)` panics when the
stored buffer is shorter than the nonce). -/
inductive RRes (α : Type) where
  | panicked
  | err (e : Error)
  | ok (a : α)
deriving DecidableEq, Repr

/-- Whether an `RRes` is the success case. -/
def RRes.isOk {α : Type} : RRes α → Bool
  | .ok _ => true
  | _ => false

/-! ### `src/encdec.rs`: value and row crypto -/

/-- `encrypt_value_in_place` (`src/encdec.rs` lines 4–31): draw a nonce from
the sequencer (an `advance` failure becomes `EncryptionError`), build the
buffer `nonce ‖ postcard(value)`, seal the part after the nonce in place
with the nonce itself as associated data, append the tag, and replace the
value with `Value::Bytea` of the whole buffer.  The state of the sequencer
and the new value are returned (`&mut` state passing). -/
def encrypt_value_in_place (key : Nat) (nonce_sequence : NonceSeq)
    (value : Value) : Except Error (NonceSeq × Value) :=
  match nonce_sequence.advance with
  | none => .error .EncryptionError
  | some (nonce, ns1) =>
    let encrypted := nonce.toList ++ serializeValue value
    let aad := nonce.toList
    let sealed := sealBytes key nonce.toList 0 (encrypted.drop 12)
    let tag := tagOf key nonce.toList aad sealed
    .ok (ns1, .Bytea (encrypted.take 12 ++ sealed ++ tag))

/-- `decrypt_value_in_place` (`src/encdec.rs` lines 54–79): on a non-binary
value, return `Ok(false)` without touching it.  On `Bytea`, clone the
stored bytes, `split_at_mut(12)` (panics when fewer than 12 bytes),
rebuild the nonce (`try_assume_unique_for_key` checks its length), open in
place with the nonce as associated data, deserialize the opened buffer
via `postcard::from_bytes`, and only then assign the value.  Returns the
function's result together with the final state of `value`. -/
def decrypt_value_in_place (key : Nat) (value : Value) : RRes Bool × Value :=
  match value with
  | .Bytea encrypted =>
    if encrypted.length < 12 then (.panicked, .Bytea encrypted)
    else
      let nonce := encrypted.take 12
      let ciphertext := encrypted.drop 12
      if nonce.length = 12 then
        match aeadOpen key nonce nonce ciphertext with
        | none => (.err .EncryptionError, .Bytea encrypted)
        | some opened =>
          match parseValue opened with
          | none => (.err .SerializationError, .Bytea encrypted)
          | some (v, _) => (.ok true, v)
      else (.err .EncryptionError, .Bytea encrypted)
  | v => (.ok false, v)

/-- Model of the gluesql `DataRow`: positional (`Vec`) or named (`Map`)
rows.  The `BTreeMap` of the named form is modelled as an association
list; `values_mut()` iterates over the values keeping keys in place. -/
inductive DataRow where
  | Vec (values : List Value)
  | Map (values : List (String × Value))
deriving DecidableEq, Repr

/-- The `for value in values` loop of `encrypt_row_in_place` on a `Vec`
row: encrypt each value in order, threading the sequencer, stopping at the
first failure. -/
def encryptValuesLoop (key : Nat) (ns : NonceSeq) :
    List Value → Except Error (NonceSeq × List Value)
  | [] => .ok (ns, [])
  | v :: rest =>
    match encrypt_value_in_place key ns v with
    | .error e => .error e
    | .ok (ns1, v1) =>
      match encryptValuesLoop key ns1 rest with
      | .error e => .error e
      | .ok (ns2, vs) => .ok (ns2, v1 :: vs)

/-- The `for value in values.values_mut()` loop of `encrypt_row_in_place`
on a `Map` row. -/
def encryptEntriesLoop (key : Nat) (ns : NonceSeq) :
    List (String × Value) → Except Error (NonceSeq × List (String × Value))
  | [] => .ok (ns, [])
  | (s, v) :: rest =>
    match encrypt_value_in_place key ns v with
    | .error e => .error e
    | .ok (ns1, v1) =>
      match encryptEntriesLoop key ns1 rest with
      | .error e => .error e
      | .ok (ns2, es) => .ok (ns2, (s, v1) :: es)

/-- `encrypt_row_in_place` (`src/encdec.rs` lines 33–52). -/
def encrypt_row_in_place (key : Nat) (ns : NonceSeq) (row : DataRow) :
    Except Error (NonceSeq × DataRow) :=
  match row with
  | .Vec values =>
    match encryptValuesLoop key ns values with
    | .error e => .error e
    | .ok (ns1, vs) => .ok (ns1, .Vec vs)
  | .Map values =>
    match encryptEntriesLoop key ns values with
    | .error e => .error e
    | .ok (ns1, es) => .ok (ns1, .Map es)

/-- The `for value in values` loop of `decrypt_row_in_place` on a `Vec`
row: decrypt each value in order, stopping at the first failure. -/
def decryptValuesLoop (key : Nat) : List Value → RRes (List Value)
  | [] => .ok []
  | v :: rest =>
    match decrypt_value_in_place key v with
    | (.panicked, _) => .panicked
    | (.err e, _) => .err e
    | (.ok _, v1) =>
      match decryptValuesLoop key rest with
      | .panicked => .panicked
      | .err e => .err e
      | .ok vs => .ok (v1 :: vs)

/-- The `for value in values.values_mut()` loop of `decrypt_row_in_place`
on a `Map` row. -/
def decryptEntriesLoop (key : Nat) :
    List (String × Value) → RRes (List (String × Value))
  | [] => .ok []
  | (s, v) :: rest =>
    match decrypt_value_in_place key v with
    | (.panicked, _) => .panicked
    | (.err e, _) => .err e
    | (.ok _, v1) =>
      match decryptEntriesLoop key rest with
      | .panicked => .panicked
      | .err e => .err e
      | .ok es => .ok ((s, v1) :: es)

/-- `decrypt_row_in_place` (`src/encdec.rs` lines 81–96). -/
def decrypt_row_in_place (key : Nat) (row : DataRow) : RRes DataRow :=
  match row with
  | .Vec values =>
    match decryptValuesLoop key values with
    | .panicked => .panicked
    | .err e => .err e
    | .ok vs => .ok (.Vec vs)
  | .Map values =>
    match decryptEntriesLoop key values with
    | .panicked => .panicked
    | .err e => .err e
    | .ok es => .ok (.Map es)

/-! ### The underlying row store

The underlying store (gluesql `MemoryStorage`-style `Store + StoreMut`) is
modelled as an association list of tables, each an association list from
row key (gluesql `Key`, modelled as `Nat`) to `DataRow`.  `insert_data`
of the underlying store overwrites the row with the same key
(BTreeMap insert). -/

abbrev RowKey := Nat

abbrev Table := List (RowKey × DataRow)

abbrev Storage := List (String × Table)

/-- Find a table by name (first match). -/
def lookupTable (s : Storage) (t : String) : Option Table :=
  match s with
  | [] => none
  | (n, tb) :: rest => if n = t then some tb else lookupTable rest t

/-- Find a row by key in a table (first match). -/
def lookupRow (tbl : Table) (k : RowKey) : Option DataRow :=
  match tbl with
  | [] => none
  | (k1, r) :: rest => if k1 = k then some r else lookupRow rest k

/-- BTreeMap-style insert: overwrite the row with key `k` if present,
otherwise append it. -/
def upsertRow (tbl : Table) (k : RowKey) (r : DataRow) : Table :=
  match tbl with
  | [] => [(k, r)]
  | (k1, r1) :: rest =>
    if k1 = k then (k, r) :: rest else (k1, r1) :: upsertRow rest k r

/-- Apply `f` to the table named `t` (leaving other tables unchanged). -/
def updateTable (s : Storage) (t : String) (f : Table → Table) : Storage :=
  match s with
  | [] => []
  | (n, tb) :: rest =>
    (if n = t then (n, f tb) else (n, tb)) :: updateTable rest t f

/-- The underlying store's `fetch_data`. -/
def fetch_data (s : Storage) (t : String) (k : RowKey) : Option DataRow :=
  match lookupTable s t with
  | none => none
  | some tbl => lookupRow tbl k

/-- The row keys produced by `scan_data` on table `t` (in table order). -/
def scanKeys (s : Storage) (t : String) : List RowKey :=
  ((lookupTable s t).getD []).map Prod.fst

/-- The underlying store's `insert_data` with a single `(key, row)` pair,
as issued by `change_key`: an overwrite of the row under that key. -/
def insertDataRow (s : Storage) (t : String) (k : RowKey) (r : DataRow) :
    Storage :=
  updateTable s t fun tbl => upsertRow tbl k r

/-! ### `src/lib.rs`: `change_key` (lines 81–141) -/

/-- The `DataRow::Map` arm of `change_key`'s per-row loop: decrypt the
value under the old key, then encrypt it under the new key
unconditionally (even when decryption reported "not applied"). -/
def rotateValueMap (oldKey newKey : Nat) (ns : NonceSeq) (v : Value) :
    RRes (NonceSeq × Value) :=
  match decrypt_value_in_place oldKey v with
  | (.panicked, _) => .panicked
  | (.err e, _) => .err e
  | (.ok _, v1) =>
    match encrypt_value_in_place newKey ns v1 with
    | .error e => .err e
    | .ok (ns1, v2) => .ok (ns1, v2)

/-- The `DataRow::Vec` arm of `change_key`'s per-row loop: decrypt the
value under the old key and re-encrypt under the new key only when
decryption was actually applied. -/
def rotateValueVec (oldKey newKey : Nat) (ns : NonceSeq) (v : Value) :
    RRes (NonceSeq × Value) :=
  match decrypt_value_in_place oldKey v with
  | (.panicked, _) => .panicked
  | (.err e, _) => .err e
  | (.ok applied, v1) =>
    if applied then
      match encrypt_value_in_place newKey ns v1 with
      | .error e => .err e
      | .ok (ns1, v2) => .ok (ns1, v2)
    else .ok (ns, v1)

/-- `change_key`'s loop over the entries of a `Map` row. -/
def rotateEntriesLoop (oldKey newKey : Nat) (ns : NonceSeq) :
    List (String × Value) → RRes (NonceSeq × List (String × Value))
  | [] => .ok (ns, [])
  | (s, v) :: rest =>
    match rotateValueMap oldKey newKey ns v with
    | .panicked => .panicked
    | .err e => .err e
    | .ok (ns1, v1) =>
      match rotateEntriesLoop oldKey newKey ns1 rest with
      | .panicked => .panicked
      | .err e => .err e
      | .ok (ns2, es) => .ok (ns2, (s, v1) :: es)

/-- `change_key`'s loop over the values of a `Vec` row. -/
def rotateValuesLoop (oldKey newKey : Nat) (ns : NonceSeq) :
    List Value → RRes (NonceSeq × List Value)
  | [] => .ok (ns, [])
  | v :: rest =>
    match rotateValueVec oldKey newKey ns v with
    | .panicked => .panicked
    | .err e => .err e
    | .ok (ns1, v1) =>
      match rotateValuesLoop oldKey newKey ns1 rest with
      | .panicked => .panicked
      | .err e => .err e
      | .ok (ns2, vs) => .ok (ns2, v1 :: vs)

/-- The per-row body of `change_key` (the `match row` at lines 105–128). -/
def rotateRow (oldKey newKey : Nat) (ns : NonceSeq) (row : DataRow) :
    RRes (NonceSeq × DataRow) :=
  match row with
  | .Map values =>
    match rotateEntriesLoop oldKey newKey ns values with
    | .panicked => .panicked
    | .err e => .err e
    | .ok (ns1, es) => .ok (ns1, .Map es)
  | .Vec values =>
    match rotateValuesLoop oldKey newKey ns values with
    | .panicked => .panicked
    | .err e => .err e
    | .ok (ns1, vs) => .ok (ns1, .Vec vs)

/-- The `for key in keys` loop of `change_key`: fetch the row under the
current store state (`Error::InvalidValue` when the key has no row),
rotate it, and write it back under the same key via the underlying
`insert_data`. -/
def changeKeyRows (oldKey newKey : Nat) (ns : NonceSeq) (s : Storage)
    (t : String) : List RowKey → RRes (NonceSeq × Storage)
  | [] => .ok (ns, s)
  | k :: rest =>
    match fetch_data s t k with
    | none => .err .InvalidValue
    | some row =>
      match rotateRow oldKey newKey ns row with
      | .panicked => .panicked
      | .err e => .err e
      | .ok (ns1, row1) =>
        changeKeyRows oldKey newKey ns1 (insertDataRow s t k row1) t rest

/-- The `for schema in schemas` loop of `change_key`: for each table the
row keys are collected by a full scan of the current store state before
the per-key loop runs. -/
def changeKeyTables (oldKey newKey : Nat) (ns : NonceSeq) (s : Storage) :
    List String → RRes (NonceSeq × Storage)
  | [] => .ok (ns, s)
  | t :: rest =>
    match changeKeyRows oldKey newKey ns s t (scanKeys s t) with
    | .panicked => .panicked
    | .err e => .err e
    | .ok (ns1, s1) => changeKeyTables oldKey newKey ns1 s1 rest

/-- `change_key` (`src/lib.rs` lines 81–141): the schema list is fetched
once up front; on success the rewritten store and the advanced sequencer
(now bound to the new key) are returned. -/
def change_key (oldKey newKey : Nat) (ns : NonceSeq) (s : Storage) :
    RRes (NonceSeq × Storage) :=
  changeKeyTables oldKey newKey ns s (s.map Prod.fst)

/-! ### `src/lib.rs`: the decorator write path (lines 197–219) -/

/-- The `for row in rows` loop of the decorator's `insert_data`:
encrypt each row in place, aborting the whole call on the first error. -/
def encryptKeyedRowsLoop (key : Nat) (ns : NonceSeq) :
    List (RowKey × DataRow) → Except Error (NonceSeq × List (RowKey × DataRow))
  | [] => .ok (ns, [])
  | (k, row) :: rest =>
    match encrypt_row_in_place key ns row with
    | .error e => .error e
    | .ok (ns1, row1) =>
      match encryptKeyedRowsLoop key ns1 rest with
      | .error e => .error e
      | .ok (ns2, rs) => .ok (ns2, (k, row1) :: rs)

/-- The `for row in rows` loop of the decorator's `append_data`. -/
def encryptRowsLoop (key : Nat) (ns : NonceSeq) :
    List DataRow → Except Error (NonceSeq × List DataRow)
  | [] => .ok (ns, [])
  | row :: rest =>
    match encrypt_row_in_place key ns row with
    | .error e => .error e
    | .ok (ns1, row1) =>
      match encryptRowsLoop key ns1 rest with
      | .error e => .error e
      | .ok (ns2, rs) => .ok (ns2, row1 :: rs)

/-- The underlying store's `insert_data` over a batch of keyed rows. -/
def storeInsertData (s : Storage) (t : String)
    (rows : List (RowKey × DataRow)) : Storage :=
  List.foldl (fun acc p => insertDataRow acc t p.1 p.2) s rows

/-- The underlying store's `append_data`: the rows are appended to the
table under fresh keys. -/
def storeAppendData (s : Storage) (t : String) (rows : List DataRow) :
    Storage :=
  updateTable s t fun tbl =>
    tbl ++ ((List.range rows.length).zip rows).map
      fun p => (1 + (tbl.map Prod.fst).foldr max 0 + p.1, p.2)

/-- The decorator's `insert_data` (`src/lib.rs` lines 210–219): encrypt
every row first; only when the whole loop succeeded is the underlying
store called, once, with the fully encrypted batch. -/
def EncryptedStore.insert_data (key : Nat) (ns : NonceSeq) (s : Storage)
    (t : String) (rows : List (RowKey × DataRow)) :
    Except Error (NonceSeq × Storage) :=
  match encryptKeyedRowsLoop key ns rows with
  | .error e => .error e
  | .ok (ns1, out) => .ok (ns1, storeInsertData s t out)

/-- The decorator's `append_data` (`src/lib.rs` lines 197–208). -/
def EncryptedStore.append_data (key : Nat) (ns : NonceSeq) (s : Storage)
    (t : String) (rows : List DataRow) : Except Error (NonceSeq × Storage) :=
  match encryptRowsLoop key ns rows with
  | .error e => .error e
  | .ok (ns1, out) => .ok (ns1, storeAppendData s t out)

/-! ### The validating constructor -/

/-- Construction-time error; the repository's tests compare against
`gluesql_encryption::Error::InvalidKey`. -/
inductive CError where
  | InvalidKey
  | Wrapped (e : Error)
deriving DecidableEq, Repr

/-- The decorator: active key, nonce sequencer and wrapped store. -/
structure EncryptedStore where
  key : Nat
  nonce_sequence : NonceSeq
  store : Storage

/-- A probe row from the pre-existing data: the first row of the first
non-empty table. -/
def firstRow (s : Storage) : Option DataRow :=
  s.findSome? fun p => p.2.head?.map Prod.snd

/-- Modelled from the spec: the validating constructor `EncryptedStore::new`
is referenced by the repository's tests (`tests/encryption.rs`:
`EncryptedStore::new(...).await.unwrap_err() == Error::InvalidKey`,
alongside the non-validating `new_unchecked`) but is absent from
`src/lib.rs`, which only contains the plain constructor.  Per the spec
(§4.4): construction validates the supplied key against existing
encrypted data by attempting to decrypt a probe row; if validation fails,
construction fails with `InvalidKey` rather than returning a decorator. -/
def EncryptedStore.new (store : Storage) (key : Nat) (ns : NonceSeq) :
    Except CError EncryptedStore :=
  match firstRow store with
  | none => .ok ⟨key, ns, store⟩
  | some row =>
    match decrypt_row_in_place key row with
    | .ok _ => .ok ⟨key, ns, store⟩
    | _ => .error .InvalidKey

/-! ### Helper lemmas about the value crypto pipeline -/

theorem take_append_len {α : Type} (l1 l2 : List α) (m : Nat)
    (h : l1.length = m) : (l1 ++ l2).take m = l1 := by
  subst h
  exact List.take_left l1 l2

theorem drop_append_len {α : Type} (l1 l2 : List α) (m : Nat)
    (h : l1.length = m) : (l1 ++ l2).drop m = l2 := by
  subst h
  exact List.drop_left l1 l2

/-- Closed form of a successful `encrypt_value_in_place`: the value becomes
`Bytea (nonce ‖ ciphertext ‖ tag)` with the nonce as associated data. -/
theorem encrypt_value_eq (key : Nat) (ns ns1 : NonceSeq) (n : Nonce)
    (v : Value) (h : ns.advance = some (n, ns1)) :
    encrypt_value_in_place key ns v =
      .ok (ns1, .Bytea (n.toList
        ++ sealBytes key n.toList 0 (serializeValue v)
        ++ tagOf key n.toList n.toList
            (sealBytes key n.toList 0 (serializeValue v)))) := by
  have hnl : n.toList.length = 12 := n.toList_length
  have ht : (n.toList ++ serializeValue v).take 12 = n.toList :=
    take_append_len _ _ _ hnl
  have hd : (n.toList ++ serializeValue v).drop 12 = serializeValue v :=
    drop_append_len _ _ _ hnl
  unfold encrypt_value_in_place
  rw [h]
  simp only [ht, hd]

/-- Decrypting a well-formed encrypted blob under the key that produced it
recovers the serialized value. -/
theorem decrypt_encrypted_blob (key : Nat) (n : Nonce) (v : Value) :
    decrypt_value_in_place key (.Bytea (n.toList
        ++ sealBytes key n.toList 0 (serializeValue v)
        ++ tagOf key n.toList n.toList
            (sealBytes key n.toList 0 (serializeValue v)))) =
      (.ok true, v) := by
  have hnl : n.toList.length = 12 := n.toList_length
  set ct := sealBytes key n.toList 0 (serializeValue v) with hct
  set tg := tagOf key n.toList n.toList ct with htg
  have htake : ((n.toList ++ ct ++ tg).take 12) = n.toList := by
    rw [List.append_assoc]
    exact take_append_len _ _ _ hnl
  have hdrop : ((n.toList ++ ct ++ tg).drop 12) = ct ++ tg := by
    rw [List.append_assoc]
    exact drop_append_len _ _ _ hnl
  have hlen : ¬ ((n.toList ++ ct ++ tg).length < 12) := by
    simp [List.length_append, hnl]
  have hopen : aeadOpen key n.toList n.toList (ct ++ tg) =
      some (serializeValue v ++ tg) :=
    aeadOpen_aeadSeal key n.toList n.toList (serializeValue v)
  simp only [decrypt_value_in_place]
  rw [if_neg hlen, htake, hdrop, if_pos hnl, hopen]
  simp [parseValue_serializeValue]

/-- C1 — Round-trip: for every encryptable `Value`, encrypting with a key
and a nonce drawn from the sequencer and then decrypting the resulting
binary-variant value with the same key reproduces the value exactly, with
decryption reporting that it was applied. -/
theorem claim_C1 (key : Nat) (ns ns1 : NonceSeq) (v v1 : Value)
    (h : encrypt_value_in_place key ns v = .ok (ns1, v1)) :
    decrypt_value_in_place key v1 = (.ok true, v) := by
  cases hadv : ns.advance with
  | none =>
    unfold encrypt_value_in_place at h
    rw [hadv] at h
    exact absurd h (by simp)
  | some p =>
    obtain ⟨n, ns2⟩ := p
    rw [encrypt_value_eq key ns ns2 n v hadv] at h
    simp only [Except.ok.injEq, Prod.mk.injEq] at h
    rw [← h.2]
    exact decrypt_encrypted_blob key n v

/-- A concrete total nonce sequencer: a `RandNonce` over the all-zero byte
stream, viewed as a `NonceSequence`. -/
def nsZero : NonceSeq :=
  RandNonce.toSeq ⟨fun _ => 0, 0⟩

/-- The result of a concrete encryption, used as the witness input. -/
def encOutC1 : NonceSeq × Value :=
  match encrypt_value_in_place 0 nsZero (.I64 1) with
  | .ok p => p
  | .error _ => (nsZero, .Null)

/-- Witness for C1 at a concrete input. -/
theorem claim_C1_witness :
    decrypt_value_in_place 0 encOutC1.2 = (.ok true, .I64 1) :=
  claim_C1 0 nsZero encOutC1.1 (.I64 1) encOutC1.2 (by rfl)

/-- C5 — At-rest format: a successful encryption stores exactly
`nonce ‖ ciphertext-of-serialized-plaintext ‖ tag` inside the binary
(`Bytea`) variant, where the seal is performed with the nonce itself as
associated data, and the AEAD open of that framing with the same nonce as
associated data succeeds and recovers the serialized plaintext. -/
theorem claim_C5 (key : Nat) (ns ns1 : NonceSeq) (n : Nonce) (v : Value)
    (h : ns.advance = some (n, ns1)) :
    encrypt_value_in_place key ns v =
      .ok (ns1, .Bytea (n.toList
        ++ (aeadSeal key n.toList n.toList (serializeValue v)).1
        ++ (aeadSeal key n.toList n.toList (serializeValue v)).2)) ∧
    aeadOpen key n.toList n.toList
        ((aeadSeal key n.toList n.toList (serializeValue v)).1
          ++ (aeadSeal key n.toList n.toList (serializeValue v)).2) =
      some (serializeValue v
        ++ (aeadSeal key n.toList n.toList (serializeValue v)).2) :=
  ⟨encrypt_value_eq key ns ns1 n v h,
   aeadOpen_aeadSeal key n.toList n.toList (serializeValue v)⟩

/-- Witness for C5 at a concrete input. -/
theorem claim_C5_witness :
    encrypt_value_in_place 0 nsZero (.Str [104, 105]) =
      .ok (⟨nsZero.gen, 1⟩, .Bytea (
        (RandNonce.nonceAt (fun _ => 0) 0).toList
        ++ (aeadSeal 0 (RandNonce.nonceAt (fun _ => 0) 0).toList
            (RandNonce.nonceAt (fun _ => 0) 0).toList
            (serializeValue (.Str [104, 105]))).1
        ++ (aeadSeal 0 (RandNonce.nonceAt (fun _ => 0) 0).toList
            (RandNonce.nonceAt (fun _ => 0) 0).toList
            (serializeValue (.Str [104, 105]))).2)) :=
  (claim_C5 0 nsZero ⟨nsZero.gen, 1⟩ (RandNonce.nonceAt (fun _ => 0) 0)
    (.Str [104, 105]) (by rfl)).1

/-- C6 — Non-encrypted passthrough: decrypting a value that is not the
binary/opaque variant returns "not applied" (`Ok(false)`) and leaves the
value unchanged; it never errors. -/
theorem claim_C6 (key : Nat) (v : Value) (h : v.isBytea = false) :
    decrypt_value_in_place key v = (.ok false, v) := by
  cases v <;> simp_all [decrypt_value_in_place, Value.isBytea]

/-- Witness for C6 at a concrete input. -/
theorem claim_C6_witness :
    decrypt_value_in_place 7 (.I64 5) = (.ok false, .I64 5) :=
  claim_C6 7 (.I64 5) (by rfl)

/-- C10 — Failure leaves the value untouched: whenever
`decrypt_value_in_place` returns an error (AEAD open failure or
deserialization failure), the value it was given is unchanged; the stored
bytes are only replaced after both opening and deserialization succeed. -/
theorem claim_C10 (key : Nat) (v : Value) (e : Error)
    (h : (decrypt_value_in_place key v).1 = .err e) :
    (decrypt_value_in_place key v).2 = v := by
  cases v with
  | Bytea b =>
    by_cases hlen : b.length < 12
    · simp [decrypt_value_in_place, hlen]
    · have h12 : (b.take 12).length = 12 := by
        rw [List.length_take]
        omega
      cases hopen : aeadOpen key (b.take 12) (b.take 12) (b.drop 12) with
      | none => simp [decrypt_value_in_place, hlen, h12, hopen]
      | some opened =>
        cases hparse : parseValue opened with
        | none => simp [decrypt_value_in_place, hlen, h12, hopen, hparse]
        | some p =>
          simp [decrypt_value_in_place, hlen, h12, hopen, hparse] at h
  | Null => simp [decrypt_value_in_place] at h
  | Boolean b => simp [decrypt_value_in_place] at h
  | I64 i => simp [decrypt_value_in_place] at h
  | Str s => simp [decrypt_value_in_place] at h

/-- Witness for C10 at a concrete input (a 12-byte buffer: the AEAD open
fails, the value is returned unchanged). -/
theorem claim_C10_witness :
    (decrypt_value_in_place 0 (.Bytea (List.replicate 12 0))).2 =
      .Bytea (List.replicate 12 0) :=
  claim_C10 0 (.Bytea (List.replicate 12 0)) .EncryptionError (by decide)

/-- C4 (counterexample) — the claim says every binary value shorter than
the minimum framing (nonce + tag = 28 bytes) yields `InvalidValue`; in the
code, a buffer shorter than the nonce makes `split_at_mut` panic, and a
buffer of 12..27 bytes makes the AEAD open fail, which is
`EncryptionError`; neither is `InvalidValue`. -/
theorem claim_C4_counterexample :
    (decrypt_value_in_place 0 (.Bytea [])).1 = .panicked ∧
    (decrypt_value_in_place 0 (.Bytea (List.replicate 12 0))).1 =
      .err .EncryptionError ∧
    (RRes.panicked : RRes Bool) ≠ .err .InvalidValue ∧
    (RRes.err .EncryptionError : RRes Bool) ≠ .err .InvalidValue := by
  refine ⟨by decide, by decide, by decide, by decide⟩

/-- C4 (amended) — for every binary value whose stored buffer is shorter
than the minimum framing size (nonce 12 + tag 16 = 28 bytes):
if it is even shorter than the nonce, `decrypt_value_in_place` panics
(`split_at_mut`); otherwise the AEAD open fails and the function returns
`EncryptionError`.  It never returns `InvalidValue` for short buffers. -/
theorem claim_C4 (key : Nat) (bs : List Byte) (h : bs.length < 28) :
    (bs.length < 12 →
      decrypt_value_in_place key (.Bytea bs) = (.panicked, .Bytea bs)) ∧
    (12 ≤ bs.length →
      decrypt_value_in_place key (.Bytea bs) =
        (.err .EncryptionError, .Bytea bs)) := by
  constructor
  · intro hlt
    simp [decrypt_value_in_place, hlt]
  · intro hge
    have hlen : ¬ bs.length < 12 := by omega
    have h12 : (bs.take 12).length = 12 := by
      rw [List.length_take]
      omega
    have hopen : aeadOpen key (bs.take 12) (bs.take 12) (bs.drop 12) =
        none := by
      unfold aeadOpen
      rw [if_pos]
      rw [List.length_drop]
      omega
    simp [decrypt_value_in_place, hlen, h12, hopen]

/-- Witness for amended C4 at a concrete input (13 bytes: at least a
nonce, but no room for a tag). -/
theorem claim_C4_witness :
    decrypt_value_in_place 0 (.Bytea (List.replicate 13 0)) =
      (.err .EncryptionError, .Bytea (List.replicate 13 0)) :=
  (claim_C4 0 (List.replicate 13 0) (by decide)).2 (by decide)

/-- C3 — Key validation at construction: when the wrapped store holds
pre-existing data and the probe row does not decrypt under the supplied
key, the validating constructor fails with `InvalidKey` instead of
returning a decorator. -/
theorem claim_C3 (store : Storage) (key : Nat) (ns : NonceSeq)
    (row : DataRow) (h1 : firstRow store = some row)
    (h2 : (decrypt_row_in_place key row).isOk = false) :
    EncryptedStore.new store key ns = .error .InvalidKey := by
  cases hd : decrypt_row_in_place key row with
  | ok r => rw [hd] at h2; simp [RRes.isOk] at h2
  | panicked => simp only [EncryptedStore.new, h1, hd]
  | err e => simp only [EncryptedStore.new, h1, hd]

/-- A concrete store with one pre-existing (corrupt) encrypted row. -/
def probeStore : Storage := [("t", [(0, .Vec [.Bytea (List.replicate 12 0)])])]

/-- Witness for C3 at a concrete input. -/
theorem claim_C3_witness :
    EncryptedStore.new probeStore 0 nsZero = .error .InvalidKey :=
  claim_C3 probeStore 0 nsZero (.Vec [.Bytea (List.replicate 12 0)])
    (by rfl) (by decide)

/-! ### Row-shape helper lemmas -/

theorem encryptValuesLoop_length (key : Nat) (vs : List Value) :
    ∀ ns ns1 vs1, encryptValuesLoop key ns vs = .ok (ns1, vs1) →
      vs1.length = vs.length := by
  induction vs with
  | nil =>
    intro ns ns1 vs1 h
    simp only [encryptValuesLoop, Except.ok.injEq, Prod.mk.injEq] at h
    rw [← h.2]
  | cons v rest ih =>
    intro ns ns1 vs1 h
    simp only [encryptValuesLoop] at h
    cases he : encrypt_value_in_place key ns v with
    | error e => simp [he] at h
    | ok p =>
      obtain ⟨nsA, vA⟩ := p
      simp only [he] at h
      cases hr : encryptValuesLoop key nsA rest with
      | error e => simp [hr] at h
      | ok q =>
        obtain ⟨nsB, vsB⟩ := q
        simp only [hr, Except.ok.injEq, Prod.mk.injEq] at h
        rw [← h.2]
        simp [ih nsA nsB vsB hr]

theorem encryptEntriesLoop_fst (key : Nat) (m : List (String × Value)) :
    ∀ ns ns1 m1, encryptEntriesLoop key ns m = .ok (ns1, m1) →
      m1.map Prod.fst = m.map Prod.fst := by
  induction m with
  | nil =>
    intro ns ns1 m1 h
    simp only [encryptEntriesLoop, Except.ok.injEq, Prod.mk.injEq] at h
    rw [← h.2]
  | cons p rest ih =>
    obtain ⟨s, v⟩ := p
    intro ns ns1 m1 h
    simp only [encryptEntriesLoop] at h
    cases he : encrypt_value_in_place key ns v with
    | error e => simp [he] at h
    | ok q =>
      obtain ⟨nsA, vA⟩ := q
      simp only [he] at h
      cases hr : encryptEntriesLoop key nsA rest with
      | error e => simp [hr] at h
      | ok w =>
        obtain ⟨nsB, esB⟩ := w
        simp only [hr, Except.ok.injEq, Prod.mk.injEq] at h
        rw [← h.2]
        simp [ih nsA nsB esB hr]

theorem decryptValuesLoop_length (key : Nat) (vs : List Value) :
    ∀ vs1, decryptValuesLoop key vs = .ok vs1 → vs1.length = vs.length := by
  induction vs with
  | nil =>
    intro vs1 h
    simp only [decryptValuesLoop, RRes.ok.injEq] at h
    rw [← h]
  | cons v rest ih =>
    intro vs1 h
    simp only [decryptValuesLoop] at h
    cases hd : decrypt_value_in_place key v with
    | mk out v1 =>
      cases out with
      | panicked => simp [hd] at h
      | err e => simp [hd] at h
      | ok b =>
        simp only [hd] at h
        cases hr : decryptValuesLoop key rest with
        | panicked => simp [hr] at h
        | err e => simp [hr] at h
        | ok vsB =>
          simp only [hr, RRes.ok.injEq] at h
          rw [← h]
          simp [ih vsB hr]

theorem decryptEntriesLoop_fst (key : Nat) (m : List (String × Value)) :
    ∀ m1, decryptEntriesLoop key m = .ok m1 →
      m1.map Prod.fst = m.map Prod.fst := by
  induction m with
  | nil =>
    intro m1 h
    simp only [decryptEntriesLoop, RRes.ok.injEq] at h
    rw [← h]
  | cons p rest ih =>
    obtain ⟨s, v⟩ := p
    intro m1 h
    simp only [decryptEntriesLoop] at h
    cases hd : decrypt_value_in_place key v with
    | mk out v1 =>
      cases out with
      | panicked => simp [hd] at h
      | err e => simp [hd] at h
      | ok b =>
        simp only [hd] at h
        cases hr : decryptEntriesLoop key rest with
        | panicked => simp [hr] at h
        | err e => simp [hr] at h
        | ok esB =>
          simp only [hr, RRes.ok.injEq] at h
          rw [← h]
          simp [ih esB hr]

/-- C8 — Row-shape preservation: successful `encrypt_row_in_place` and
`decrypt_row_in_place` keep the number of values of a positional row and
the column names (in order) of a named row; only value contents change. -/
theorem claim_C8 (key : Nat) (ns : NonceSeq) :
    (∀ vs ns1 row1, encrypt_row_in_place key ns (.Vec vs) = .ok (ns1, row1) →
      ∃ vs1, row1 = .Vec vs1 ∧ vs1.length = vs.length) ∧
    (∀ m ns1 row1, encrypt_row_in_place key ns (.Map m) = .ok (ns1, row1) →
      ∃ m1, row1 = .Map m1 ∧ m1.map Prod.fst = m.map Prod.fst) ∧
    (∀ vs row1, decrypt_row_in_place key (.Vec vs) = .ok row1 →
      ∃ vs1, row1 = .Vec vs1 ∧ vs1.length = vs.length) ∧
    (∀ m row1, decrypt_row_in_place key (.Map m) = .ok row1 →
      ∃ m1, row1 = .Map m1 ∧ m1.map Prod.fst = m.map Prod.fst) := by
  refine ⟨?_, ?_, ?_, ?_⟩
  · intro vs ns1 row1 h
    simp only [encrypt_row_in_place] at h
    cases hl : encryptValuesLoop key ns vs with
    | error e => simp [hl] at h
    | ok p =>
      obtain ⟨nsA, vsA⟩ := p
      simp only [hl, Except.ok.injEq, Prod.mk.injEq] at h
      exact ⟨vsA, h.2.symm, encryptValuesLoop_length key vs ns nsA vsA hl⟩
  · intro m ns1 row1 h
    simp only [encrypt_row_in_place] at h
    cases hl : encryptEntriesLoop key ns m with
    | error e => simp [hl] at h
    | ok p =>
      obtain ⟨nsA, esA⟩ := p
      simp only [hl, Except.ok.injEq, Prod.mk.injEq] at h
      exact ⟨esA, h.2.symm, encryptEntriesLoop_fst key m ns nsA esA hl⟩
  · intro vs row1 h
    simp only [decrypt_row_in_place] at h
    cases hl : decryptValuesLoop key vs with
    | panicked => simp [hl] at h
    | err e => simp [hl] at h
    | ok vsA =>
      simp only [hl, RRes.ok.injEq] at h
      exact ⟨vsA, h.symm, decryptValuesLoop_length key vs vsA hl⟩
  · intro m row1 h
    simp only [decrypt_row_in_place] at h
    cases hl : decryptEntriesLoop key m with
    | panicked => simp [hl] at h
    | err e => simp [hl] at h
    | ok esA =>
      simp only [hl, RRes.ok.injEq] at h
      exact ⟨esA, h.symm, decryptEntriesLoop_fst key m esA hl⟩

/-- The result of a concrete row encryption, used as the witness input. -/
def encRowOutC8 : NonceSeq × DataRow :=
  match encrypt_row_in_place 0 nsZero (.Map [("id", .I64 1)]) with
  | .ok p => p
  | .error _ => (nsZero, .Vec [])

/-- Witness for C8 at a concrete input. -/
theorem claim_C8_witness :
    ∃ m1, encRowOutC8.2 = .Map m1 ∧ m1.map Prod.fst = ["id"] :=
  (claim_C8 0 nsZero).2.1 [("id", .I64 1)] encRowOutC8.1 encRowOutC8.2
    (by rfl)

/-! ### Write-path helper lemmas -/

theorem encryptValuesLoop_append_error (key : Nat) (pre : List Value) :
    ∀ ns ns1 pre1 rest e, encryptValuesLoop key ns pre = .ok (ns1, pre1) →
      encryptValuesLoop key ns1 rest = .error e →
      encryptValuesLoop key ns (pre ++ rest) = .error e := by
  induction pre with
  | nil =>
    intro ns ns1 pre1 rest e h1 h2
    simp only [encryptValuesLoop, Except.ok.injEq, Prod.mk.injEq] at h1
    rw [List.nil_append, h1.1]
    exact h2
  | cons v tl ih =>
    intro ns ns1 pre1 rest e h1 h2
    simp only [encryptValuesLoop] at h1
    cases he : encrypt_value_in_place key ns v with
    | error e2 => simp [he] at h1
    | ok p =>
      obtain ⟨nsA, vA⟩ := p
      simp only [he] at h1
      cases hr : encryptValuesLoop key nsA tl with
      | error e2 => simp [hr] at h1
      | ok q =>
        obtain ⟨nsB, vsB⟩ := q
        simp only [hr, Except.ok.injEq, Prod.mk.injEq] at h1
        obtain ⟨hns, hvs⟩ := h1
        subst hns
        simp only [List.cons_append, List.append_eq, encryptValuesLoop, he]
        rw [ih nsA nsB vsB rest e hr h2]

theorem decryptValuesLoop_append_err (key : Nat) (pre : List Value) :
    ∀ pre1 rest e, decryptValuesLoop key pre = .ok pre1 →
      decryptValuesLoop key rest = .err e →
      decryptValuesLoop key (pre ++ rest) = .err e := by
  induction pre with
  | nil =>
    intro pre1 rest e h1 h2
    rw [List.nil_append]
    exact h2
  | cons v tl ih =>
    intro pre1 rest e h1 h2
    simp only [decryptValuesLoop] at h1
    cases hd : decrypt_value_in_place key v with
    | mk out v1 =>
      cases out with
      | panicked => simp [hd] at h1
      | err e2 => simp [hd] at h1
      | ok b =>
        simp only [hd] at h1
        cases hr : decryptValuesLoop key tl with
        | panicked => simp [hr] at h1
        | err e2 => simp [hr] at h1
        | ok vsB =>
          simp only [List.cons_append, List.append_eq, decryptValuesLoop, hd]
          rw [ih vsB rest e hr h2]

/-- C7 — Write path: `insert_data` and `append_data` encrypt every row
before the single forwarding call to the underlying store; an encryption
error aborts the whole call with that error, before any row reaches the
store; within a row, the encryption and decryption loops stop at the
first failing value. -/
theorem claim_C7 (key : Nat) (ns : NonceSeq) (s : Storage) (t : String) :
    (∀ krows e, encryptKeyedRowsLoop key ns krows = .error e →
      EncryptedStore.insert_data key ns s t krows = .error e) ∧
    (∀ krows ns1 out, encryptKeyedRowsLoop key ns krows = .ok (ns1, out) →
      EncryptedStore.insert_data key ns s t krows =
        .ok (ns1, storeInsertData s t out)) ∧
    (∀ rows e, encryptRowsLoop key ns rows = .error e →
      EncryptedStore.append_data key ns s t rows = .error e) ∧
    (∀ rows ns1 out, encryptRowsLoop key ns rows = .ok (ns1, out) →
      EncryptedStore.append_data key ns s t rows =
        .ok (ns1, storeAppendData s t out)) ∧
    (∀ pre v post ns1 pre1 e,
      encryptValuesLoop key ns pre = .ok (ns1, pre1) →
      encrypt_value_in_place key ns1 v = .error e →
      encrypt_row_in_place key ns (.Vec (pre ++ v :: post)) = .error e) ∧
    (∀ pre v post pre1 e, decryptValuesLoop key pre = .ok pre1 →
      (decrypt_value_in_place key v).1 = .err e →
      decrypt_row_in_place key (.Vec (pre ++ v :: post)) = .err e) := by
  refine ⟨?_, ?_, ?_, ?_, ?_, ?_⟩
  · intro krows e h
    simp only [EncryptedStore.insert_data, h]
  · intro krows ns1 out h
    simp only [EncryptedStore.insert_data, h]
  · intro rows e h
    simp only [EncryptedStore.append_data, h]
  · intro rows ns1 out h
    simp only [EncryptedStore.append_data, h]
  · intro pre v post ns1 pre1 e h1 h2
    have hloop : encryptValuesLoop key ns (pre ++ v :: post) = .error e := by
      apply encryptValuesLoop_append_error key pre ns ns1 pre1 _ e h1
      simp only [encryptValuesLoop, h2]
    simp only [encrypt_row_in_place, hloop]
  · intro pre v post pre1 e h1 h2
    have hval : decrypt_value_in_place key v =
        (.err e, (decrypt_value_in_place key v).2) := by
      rw [← h2]
    have hloop : decryptValuesLoop key (pre ++ v :: post) = .err e := by
      apply decryptValuesLoop_append_err key pre pre1 _ e h1
      simp only [decryptValuesLoop]
      rw [hval]
    simp only [decrypt_row_in_place, hloop]

/-- A nonce sequencer whose `advance` always fails. -/
def nsFail : NonceSeq := ⟨fun _ => none, 0⟩

/-- Witness for C7 at a concrete input: a failing sequencer makes
`insert_data` abort with `EncryptionError` and nothing is forwarded. -/
theorem claim_C7_witness :
    EncryptedStore.insert_data 0 nsFail [] "t" [(0, .Vec [.I64 1])] =
      .error .EncryptionError :=
  (claim_C7 0 nsFail [] "t").1 [(0, .Vec [.I64 1])] .EncryptionError
    (by rfl)

/-- C9 (counterexample) — the claim that N consecutive calls to the random
nonce sequencer always produce N pairwise-distinct nonces is false: nonces
are 12 bytes, so there are only `2 ^ 96` of them, and any
`2 ^ 96 + 1` consecutive draws must repeat one (this holds for every
possible RNG byte stream, hence for every ChaCha20 state). -/
theorem claim_C9_counterexample :
    ¬ (∀ (s : Nat → Byte) (N : Nat),
        (randNonceList s N).Pairwise (· ≠ ·)) := by
  intro h
  have h2 : (randNonceList (fun _ => 0) (2 ^ 96 + 1)).Nodup :=
    h (fun _ => 0) (2 ^ 96 + 1)
  have hcard := h2.length_le_card
  have hlen : (randNonceList (fun _ => 0) (2 ^ 96 + 1)).length =
      2 ^ 96 + 1 := by
    simp [randNonceList]
  have hpow : Fintype.card (Mathlib.Vector Byte 12) = 2 ^ 96 := by
    rw [card_vector, Fintype.card_fin]
    norm_num
  rw [hlen, hpow] at hcard
  omega

/-- C9 (amended) — every call to `RandNonce::advance` succeeds and yields a
12-byte nonce (consuming 12 fresh stream bytes), and N consecutive calls
produce N nonces; but pairwise distinctness is not guaranteed: it
necessarily fails for `N > 2 ^ 96`, and is only probabilistic below that
bound. -/
theorem claim_C9 (s : Nat → Byte) (N : Nat) (r : RandNonce) :
    (randNonceList s N).length = N ∧
    (RandNonce.toSeq r).advance =
      some (RandNonce.nonceAt r.stream r.pos,
        ⟨(RandNonce.toSeq r).gen, r.pos + 1⟩) ∧
    (2 ^ 96 < N → ¬ (randNonceList s N).Pairwise (· ≠ ·)) := by
  refine ⟨by simp [randNonceList], rfl, ?_⟩
  intro hN hpw
  have h2 : (randNonceList s N).Nodup := hpw
  have hcard := h2.length_le_card
  have hlen : (randNonceList s N).length = N := by simp [randNonceList]
  have hpow : Fintype.card (Mathlib.Vector Byte 12) = 2 ^ 96 := by
    rw [card_vector, Fintype.card_fin]
    norm_num
  rw [hlen, hpow] at hcard
  omega

/-- Witness for amended C9 at a concrete input. -/
theorem claim_C9_witness :
    (randNonceList (fun _ => 0) (2 ^ 96 + 1)).length = 2 ^ 96 + 1 ∧
    ¬ (randNonceList (fun _ => 0) (2 ^ 96 + 1)).Pairwise (· ≠ ·) := by
  have h := claim_C9 (fun _ => 0) (2 ^ 96 + 1) ⟨fun _ => 0, 0⟩
  exact ⟨h.1, h.2.2 (by omega)⟩

/-! ### Key-rotation helper lemmas and claims -/

/-- All values of a row are the binary (encrypted-blob) variant. -/
def rowAllBytea : DataRow → Bool
  | .Vec vs => vs.all Value.isBytea
  | .Map m => m.all fun p => p.2.isBytea

/-- A concrete store with one positional and one named row, both holding
the plaintext value `I64 1`. -/
def cexStore : Storage :=
  [("t", [(0, .Vec [.I64 1]), (1, .Map [("a", .I64 1)])])]

/-- The result of the concrete key rotation used as counterexample input. -/
def c2Out : NonceSeq × Storage :=
  match change_key 0 1 nsZero cexStore with
  | .ok p => p
  | _ => (nsZero, [])

/-- C2 (counterexample) — the claim that during `change_key` every value of
every row (positional or named alike) is decrypted under the old key and
then encrypted under the new key is false: in a `Vec` row a value that was
not encrypted is left as plaintext (here `I64 1` survives rotation
unencrypted), while in a `Map` row it would have been encrypted. -/
theorem claim_C2_counterexample :
    ¬ (∀ (oldKey newKey : Nat) (ns ns1 : NonceSeq) (s s1 : Storage),
        change_key oldKey newKey ns s = .ok (ns1, s1) →
        ∀ t k row1, fetch_data s1 t k = some row1 →
          rowAllBytea row1 = true) := by
  intro h
  have hck : change_key 0 1 nsZero cexStore = .ok (c2Out.1, c2Out.2) := by
    rfl
  have hvec : fetch_data c2Out.2 "t" 0 = some (.Vec [.I64 1]) := by rfl
  have := h 0 1 nsZero c2Out.1 cexStore c2Out.2 hck "t" 0 (.Vec [.I64 1]) hvec
  exact absurd this (by decide)

/-- A successful `encrypt_value_in_place` always yields a `Bytea` value. -/
theorem encrypt_value_isBytea (key : Nat) (ns ns1 : NonceSeq) (v v1 : Value)
    (h : encrypt_value_in_place key ns v = .ok (ns1, v1)) :
    v1.isBytea = true := by
  unfold encrypt_value_in_place at h
  cases ha : ns.advance with
  | none => simp [ha] at h
  | some p =>
    obtain ⟨n, ns2⟩ := p
    simp only [ha, Except.ok.injEq, Prod.mk.injEq] at h
    rw [← h.2]
    rfl

/-- Decrypting a non-binary value is a no-op that reports "not applied". -/
theorem decrypt_value_passthrough (key : Nat) (v : Value)
    (h : v.isBytea = false) :
    decrypt_value_in_place key v = (.ok false, v) := by
  cases v <;> simp_all [decrypt_value_in_place, Value.isBytea]

/-- When decrypting a binary value succeeds, it reports "applied". -/
theorem decrypt_bytea_applied (key : Nat) (b : List Byte) (out : Bool)
    (v1 : Value)
    (h : decrypt_value_in_place key (.Bytea b) = (.ok out, v1)) :
    out = true := by
  by_cases hlen : b.length < 12
  · simp [decrypt_value_in_place, hlen] at h
  · have h12 : (b.take 12).length = 12 := by
      rw [List.length_take]
      omega
    cases hopen : aeadOpen key (b.take 12) (b.take 12) (b.drop 12) with
    | none => simp [decrypt_value_in_place, hlen, h12, hopen] at h
    | some opened =>
      cases hparse : parseValue opened with
      | none => simp [decrypt_value_in_place, hlen, h12, hopen, hparse] at h
      | some p =>
        simp [decrypt_value_in_place, hlen, h12, hopen, hparse] at h
        exact h.1

/-- The `Map`-arm rotation always leaves the value encrypted (a `Bytea`). -/
theorem rotateValueMap_bytea (oldKey newKey : Nat) (ns ns1 : NonceSeq)
    (v v1 : Value)
    (h : rotateValueMap oldKey newKey ns v = .ok (ns1, v1)) :
    v1.isBytea = true := by
  unfold rotateValueMap at h
  cases hd : decrypt_value_in_place oldKey v with
  | mk out vmid =>
    cases out with
    | panicked => simp [hd] at h
    | err e => simp [hd] at h
    | ok b =>
      simp only [hd] at h
      cases he : encrypt_value_in_place newKey ns vmid with
      | error e => simp [he] at h
      | ok p =>
        simp only [he, RRes.ok.injEq, Prod.mk.injEq] at h
        rw [← h.2]
        exact encrypt_value_isBytea newKey ns p.1 vmid p.2 (by rw [he])

/-- The `Vec`-arm rotation: a plaintext value is a complete no-op, and an
encrypted value is re-encrypted (stays a `Bytea`). -/
theorem rotateValueVec_spec (oldKey newKey : Nat) (ns ns1 : NonceSeq)
    (v v1 : Value)
    (h : rotateValueVec oldKey newKey ns v = .ok (ns1, v1)) :
    (v.isBytea = false → v1 = v) ∧
    (v.isBytea = true → v1.isBytea = true) := by
  unfold rotateValueVec at h
  cases hd : decrypt_value_in_place oldKey v with
  | mk out vmid =>
    cases out with
    | panicked => simp [hd] at h
    | err e => simp [hd] at h
    | ok applied =>
      simp only [hd] at h
      cases applied with
      | true =>
        constructor
        · intro hnb
          have := decrypt_value_passthrough oldKey v hnb
          rw [this] at hd
          simp at hd
        · intro hb
          simp only [if_true, reduceIte] at h
          cases he : encrypt_value_in_place newKey ns vmid with
          | error e => simp [he] at h
          | ok p =>
            simp only [he, RRes.ok.injEq, Prod.mk.injEq] at h
            rw [← h.2]
            exact encrypt_value_isBytea newKey ns p.1 vmid p.2 (by rw [he])
      | false =>
        simp only [Bool.false_eq_true, reduceIte, RRes.ok.injEq,
          Prod.mk.injEq] at h
        constructor
        · intro hnb
          have := decrypt_value_passthrough oldKey v hnb
          rw [this] at hd
          simp only [Prod.mk.injEq] at hd
          rw [← h.2, ← hd.2]
        · intro hb
          exfalso
          cases v with
          | Bytea b =>
            have := decrypt_bytea_applied oldKey b false vmid hd
            simp at this
          | Null => simp [Value.isBytea] at hb
          | Boolean c => simp [Value.isBytea] at hb
          | I64 i => simp [Value.isBytea] at hb
          | Str s => simp [Value.isBytea] at hb

/-- `change_key`'s `Vec` loop, characterized value by value. -/
theorem rotateValuesLoop_forall2 (oldKey newKey : Nat) (vs : List Value) :
    ∀ ns ns1 vs1, rotateValuesLoop oldKey newKey ns vs = .ok (ns1, vs1) →
      List.Forall₂ (fun v v1 => (v.isBytea = false → v1 = v) ∧
        (v.isBytea = true → v1.isBytea = true)) vs vs1 := by
  induction vs with
  | nil =>
    intro ns ns1 vs1 h
    simp only [rotateValuesLoop, RRes.ok.injEq, Prod.mk.injEq] at h
    rw [← h.2]
    exact List.Forall₂.nil
  | cons v rest ih =>
    intro ns ns1 vs1 h
    simp only [rotateValuesLoop] at h
    cases hv : rotateValueVec oldKey newKey ns v with
    | panicked => simp [hv] at h
    | err e => simp [hv] at h
    | ok p =>
      obtain ⟨nsA, vA⟩ := p
      simp only [hv] at h
      cases hr : rotateValuesLoop oldKey newKey nsA rest with
      | panicked => simp [hr] at h
      | err e => simp [hr] at h
      | ok q =>
        obtain ⟨nsB, vsB⟩ := q
        simp only [hr, RRes.ok.injEq, Prod.mk.injEq] at h
        rw [← h.2]
        exact List.Forall₂.cons
          (rotateValueVec_spec oldKey newKey ns nsA v vA hv)
          (ih nsA nsB vsB hr)

/-- `change_key`'s `Map` loop: keys are preserved and every resulting
value is encrypted. -/
theorem rotateEntriesLoop_spec (oldKey newKey : Nat)
    (m : List (String × Value)) :
    ∀ ns ns1 m1, rotateEntriesLoop oldKey newKey ns m = .ok (ns1, m1) →
      m1.map Prod.fst = m.map Prod.fst ∧
      ∀ p ∈ m1, p.2.isBytea = true := by
  induction m with
  | nil =>
    intro ns ns1 m1 h
    simp only [rotateEntriesLoop, RRes.ok.injEq, Prod.mk.injEq] at h
    rw [← h.2]
    exact ⟨rfl, by simp⟩
  | cons p rest ih =>
    obtain ⟨s, v⟩ := p
    intro ns ns1 m1 h
    simp only [rotateEntriesLoop] at h
    cases hv : rotateValueMap oldKey newKey ns v with
    | panicked => simp [hv] at h
    | err e => simp [hv] at h
    | ok q =>
      obtain ⟨nsA, vA⟩ := q
      simp only [hv] at h
      cases hr : rotateEntriesLoop oldKey newKey nsA rest with
      | panicked => simp [hr] at h
      | err e => simp [hr] at h
      | ok w =>
        obtain ⟨nsB, esB⟩ := w
        simp only [hr, RRes.ok.injEq, Prod.mk.injEq] at h
        rw [← h.2]
        obtain ⟨ih1, ih2⟩ := ih nsA nsB esB hr
        refine ⟨by simp [ih1], ?_⟩
        intro q hq
        rcases List.mem_cons.mp hq with hq | hq
        · rw [hq]
          exact rotateValueMap_bytea oldKey newKey ns nsA v vA hv
        · exact ih2 q hq

/-! ### Association-list store lemmas -/

theorem lookupRow_mem_fst (tbl : Table) (k : RowKey) (r : DataRow)
    (h : lookupRow tbl k = some r) : k ∈ tbl.map Prod.fst := by
  induction tbl with
  | nil => simp [lookupRow] at h
  | cons p rest ih =>
    obtain ⟨k1, r1⟩ := p
    by_cases hk : k1 = k
    · subst hk
      simp
    · simp only [lookupRow, if_neg hk] at h
      simp [ih h]

theorem upsertRow_fst (tbl : Table) (k : RowKey) (r : DataRow)
    (h : k ∈ tbl.map Prod.fst) :
    (upsertRow tbl k r).map Prod.fst = tbl.map Prod.fst := by
  induction tbl with
  | nil => simp at h
  | cons p rest ih =>
    obtain ⟨k1, r1⟩ := p
    by_cases hk : k1 = k
    · subst hk
      simp [upsertRow]
    · simp only [upsertRow, if_neg hk, List.map_cons]
      have hmem : k ∈ rest.map Prod.fst := by
        simp only [List.map_cons, List.mem_cons] at h
        rcases h with h | h
        · exact absurd h.symm hk
        · exact h
      rw [ih hmem]

theorem lookupRow_upsertRow (tbl : Table) (k : RowKey) (r : DataRow)
    (k' : RowKey) :
    lookupRow (upsertRow tbl k r) k' =
      if k' = k then some r else lookupRow tbl k' := by
  induction tbl with
  | nil =>
    by_cases hk : k' = k
    · subst hk
      simp [upsertRow, lookupRow]
    · have hk2 : ¬ (k = k') := fun h => hk h.symm
      simp [upsertRow, lookupRow, hk, hk2]
  | cons p rest ih =>
    obtain ⟨k1, r1⟩ := p
    by_cases h1 : k1 = k
    · subst h1
      by_cases h2 : k' = k1
      · subst h2
        simp [upsertRow, lookupRow]
      · have h3 : ¬ (k1 = k') := fun h => h2 h.symm
        simp [upsertRow, lookupRow, h2, h3]
    · by_cases h2 : k1 = k'
      · subst h2
        simp [upsertRow, lookupRow, h1]
      · simp only [upsertRow, if_neg h1, lookupRow, if_neg h2]
        rw [ih]

theorem updateTable_cons (n : String) (tb : Table) (rest : Storage)
    (t : String) (f : Table → Table) :
    updateTable ((n, tb) :: rest) t f =
      (if n = t then (n, f tb) else (n, tb)) :: updateTable rest t f := rfl

theorem map_fst_updateTable (s : Storage) (t : String) (f : Table → Table) :
    (updateTable s t f).map Prod.fst = s.map Prod.fst := by
  induction s with
  | nil => rfl
  | cons p rest ih =>
    obtain ⟨n, tb⟩ := p
    rw [updateTable_cons]
    by_cases hn : n = t
    · rw [if_pos hn]
      simp [ih]
    · rw [if_neg hn]
      simp [ih]

theorem lookupTable_updateTable (s : Storage) (t : String) (f : Table → Table)
    (t' : String) :
    lookupTable (updateTable s t f) t' =
      if t' = t then (lookupTable s t).map f else lookupTable s t' := by
  induction s with
  | nil => by_cases ht : t' = t <;> simp [updateTable, lookupTable, ht]
  | cons p rest ih =>
    obtain ⟨n, tb⟩ := p
    rw [updateTable_cons]
    by_cases hn : n = t
    · rw [if_pos hn]
      subst hn
      by_cases ht : t' = n
      · subst ht
        simp [lookupTable, ih]
      · have hnt : ¬ (n = t') := fun h => ht h.symm
        simp [lookupTable, ht, hnt, ih]
    · rw [if_neg hn]
      by_cases ht : n = t'
      · subst ht
        have h2 : ¬ (n = t) := hn
        simp [lookupTable, h2]
      · simp [lookupTable, hn, ht, ih]

theorem lookupTable_mem (s : Storage) (t : String) (tbl : Table)
    (h : lookupTable s t = some tbl) : t ∈ s.map Prod.fst := by
  induction s with
  | nil => simp [lookupTable] at h
  | cons p rest ih =>
    obtain ⟨n, tb⟩ := p
    by_cases hn : n = t
    · subst hn
      simp
    · simp only [lookupTable, if_neg hn] at h
      simp [ih h]

theorem fetch_mem_scanKeys (s : Storage) (t : String) (k : RowKey)
    (row : DataRow) (h : fetch_data s t k = some row) :
    k ∈ scanKeys s t := by
  simp only [fetch_data] at h
  cases hlt : lookupTable s t with
  | none => rw [hlt] at h; cases h
  | some tbl =>
    rw [hlt] at h
    unfold scanKeys
    rw [hlt]
    exact lookupRow_mem_fst tbl k row h

/-- Per-table characterization of `change_key`'s inner loop: table names
are untouched, other tables are untouched, the key set of the processed
table is preserved (rows are overwritten, never appended), every processed
key ends up holding the rotation of the row it held before, and keys not
in the processed list are untouched. -/
theorem changeKeyRows_spec (oldKey newKey : Nat) (t : String)
    (keys : List RowKey) :
    ∀ ns s ns1 s1,
      changeKeyRows oldKey newKey ns s t keys = .ok (ns1, s1) →
      keys.Nodup →
      (s1.map Prod.fst = s.map Prod.fst) ∧
      (∀ t', t' ≠ t → lookupTable s1 t' = lookupTable s t') ∧
      (scanKeys s1 t = scanKeys s t) ∧
      (∀ k, k ∈ keys →
        ∃ row nsA nsB row1, fetch_data s t k = some row ∧
          rotateRow oldKey newKey nsA row = .ok (nsB, row1) ∧
          fetch_data s1 t k = some row1) ∧
      (∀ k, k ∉ keys → fetch_data s1 t k = fetch_data s t k) := by
  induction keys with
  | nil =>
    intro ns s ns1 s1 h hnd
    simp only [changeKeyRows, RRes.ok.injEq, Prod.mk.injEq] at h
    rw [← h.2]
    exact ⟨rfl, fun _ _ => rfl, rfl,
      fun k hk => absurd hk (List.not_mem_nil k), fun _ _ => rfl⟩
  | cons k rest ih =>
    intro ns s ns1 s1 h hnd
    simp only [changeKeyRows] at h
    cases hf : fetch_data s t k with
    | none => simp [hf] at h
    | some row =>
      simp only [hf] at h
      cases hrot : rotateRow oldKey newKey ns row with
      | panicked => simp [hrot] at h
      | err e => simp [hrot] at h
      | ok p =>
        obtain ⟨nsA, row1⟩ := p
        simp only [hrot] at h
        have hnd1 : rest.Nodup := (List.nodup_cons.mp hnd).2
        have hkne : k ∉ rest := (List.nodup_cons.mp hnd).1
        obtain ⟨ihA, ihB, ihC, ihD, ihE⟩ :=
          ih nsA (insertDataRow s t k row1) ns1 s1 h hnd1
        have hfd := hf
        simp only [fetch_data] at hfd
        cases hlt : lookupTable s t with
        | none => rw [hlt] at hfd; cases hfd
        | some tbl =>
          rw [hlt] at hfd
          have hkmem : k ∈ tbl.map Prod.fst := lookupRow_mem_fst tbl k row hfd
          have stepNames : (insertDataRow s t k row1).map Prod.fst =
              s.map Prod.fst := map_fst_updateTable s t _
          have stepLTt : lookupTable (insertDataRow s t k row1) t =
              some (upsertRow tbl k row1) := by
            unfold insertDataRow
            rw [lookupTable_updateTable, if_pos rfl, hlt]
            rfl
          have stepLTo : ∀ t', t' ≠ t →
              lookupTable (insertDataRow s t k row1) t' =
                lookupTable s t' := by
            intro t' ht'
            unfold insertDataRow
            rw [lookupTable_updateTable, if_neg ht']
          have stepScan : scanKeys (insertDataRow s t k row1) t =
              scanKeys s t := by
            unfold scanKeys
            rw [stepLTt, hlt]
            simp [upsertRow_fst tbl k row1 hkmem]
          have stepFetchMe : fetch_data (insertDataRow s t k row1) t k =
              some row1 := by
            simp only [fetch_data, stepLTt]
            rw [lookupRow_upsertRow, if_pos rfl]
          have stepFetchOther : ∀ k', k' ≠ k →
              fetch_data (insertDataRow s t k row1) t k' =
                fetch_data s t k' := by
            intro k' hk'
            simp only [fetch_data, stepLTt, hlt]
            rw [lookupRow_upsertRow, if_neg hk']
          refine ⟨ihA.trans stepNames, ?_, ihC.trans stepScan, ?_, ?_⟩
          · intro t' ht'
            rw [ihB t' ht', stepLTo t' ht']
          · intro k2 hk2
            rcases List.mem_cons.mp hk2 with hk2 | hk2
            · subst hk2
              refine ⟨row, ns, nsA, row1, hf, hrot, ?_⟩
              rw [ihE k2 hkne]
              exact stepFetchMe
            · obtain ⟨row2, nsX, nsY, row3, hfd2, hrot2, hfin2⟩ :=
                ihD k2 hk2
              have hk2ne : k2 ≠ k := fun hh => hkne (hh ▸ hk2)
              refine ⟨row2, nsX, nsY, row3, ?_, hrot2, hfin2⟩
              rw [← stepFetchOther k2 hk2ne]
              exact hfd2
          · intro k2 hk2
            have hk2r : k2 ∉ rest := fun hh =>
              hk2 (List.mem_cons_of_mem _ hh)
            have hk2ne : k2 ≠ k := fun hh =>
              hk2 (hh ▸ List.mem_cons_self k rest)
            rw [ihE k2 hk2r, stepFetchOther k2 hk2ne]

/-- Whole-store characterization of `change_key`'s outer loop. -/
theorem changeKeyTables_spec (oldKey newKey : Nat) (names : List String) :
    ∀ ns s ns1 s1,
      changeKeyTables oldKey newKey ns s names = .ok (ns1, s1) →
      names.Nodup →
      (∀ t, (scanKeys s t).Nodup) →
      (s1.map Prod.fst = s.map Prod.fst) ∧
      (∀ t, scanKeys s1 t = scanKeys s t) ∧
      (∀ t', t' ∉ names → lookupTable s1 t' = lookupTable s t') ∧
      (∀ t, t ∈ names → ∀ k row1, fetch_data s1 t k = some row1 →
        ∃ row nsA nsB, fetch_data s t k = some row ∧
          rotateRow oldKey newKey nsA row = .ok (nsB, row1)) := by
  induction names with
  | nil =>
    intro ns s ns1 s1 h hnd hwfk
    simp only [changeKeyTables, RRes.ok.injEq, Prod.mk.injEq] at h
    rw [← h.2]
    exact ⟨rfl, fun _ => rfl, fun _ _ => rfl,
      fun t ht => absurd ht (List.not_mem_nil t)⟩
  | cons t rest ih =>
    intro ns s ns1 s1 h hnd hwfk
    simp only [changeKeyTables] at h
    cases hrows : changeKeyRows oldKey newKey ns s t (scanKeys s t) with
    | panicked => simp [hrows] at h
    | err e => simp [hrows] at h
    | ok p =>
      obtain ⟨nsA, sA⟩ := p
      simp only [hrows] at h
      obtain ⟨rA, rB, rC, rD, rE⟩ :=
        changeKeyRows_spec oldKey newKey t (scanKeys s t) ns s nsA sA
          hrows (hwfk t)
      have hscanA : ∀ t0, scanKeys sA t0 = scanKeys s t0 := by
        intro t0
        by_cases ht0 : t0 = t
        · subst ht0
          exact rC
        · unfold scanKeys
          rw [rB t0 ht0]
      have hwfkA : ∀ t0, (scanKeys sA t0).Nodup := by
        intro t0
        rw [hscanA t0]
        exact hwfk t0
      have htne : t ∉ rest := (List.nodup_cons.mp hnd).1
      obtain ⟨ihA, ihB, ihC, ihD⟩ :=
        ih nsA sA ns1 s1 h (List.nodup_cons.mp hnd).2 hwfkA
      refine ⟨ihA.trans rA, ?_, ?_, ?_⟩
      · intro t0
        rw [ihB t0, hscanA t0]
      · intro t0 ht0
        have h1 : t0 ∉ rest := fun hh => ht0 (List.mem_cons_of_mem _ hh)
        have h2 : t0 ≠ t := fun hh => ht0 (hh ▸ List.mem_cons_self t rest)
        rw [ihC t0 h1, rB t0 h2]
      · intro t0 ht0 k row1 hfin
        rcases List.mem_cons.mp ht0 with ht0 | ht0
        · subst ht0
          have hfinA : fetch_data sA t0 k = some row1 := by
            have hlt := ihC t0 htne
            simp only [fetch_data] at hfin ⊢
            rw [← hlt]
            exact hfin
          by_cases hkmem : k ∈ scanKeys s t0
          · obtain ⟨row, nsX, nsY, row2, hfd, hrot, hfinA2⟩ := rD k hkmem
            rw [hfinA] at hfinA2
            obtain rfl : row2 = row1 := (Option.some.inj hfinA2).symm
            exact ⟨row, nsX, nsY, hfd, hrot⟩
          · exfalso
            rw [rE k hkmem] at hfinA
            exact hkmem (fetch_mem_scanKeys s t0 k row1 hfinA)
        · have ht0t : t0 ≠ t := fun hh => htne (hh ▸ ht0)
          obtain ⟨row, nsX, nsY, hfd, hrot⟩ := ihD t0 ht0 k row1 hfin
          refine ⟨row, nsX, nsY, ?_, hrot⟩
          simp only [fetch_data] at hfd ⊢
          rw [← rB t0 ht0t]
          exact hfd

/-- C2 (amended) — for a well-formed store (distinct table names, distinct
row keys per table), a successful `change_key` preserves the set of tables
and the exact key list of every table (each row is written back under its
same key as an overwrite, never appended), and every row afterwards is the
rotation of the row previously stored under the same key.  Rotation is
asymmetric between row shapes: in a `Map` row every value — including
previously non-encrypted ones — is decrypted under the old key (a no-op
for non-encrypted values) and then encrypted under the new key, so all
resulting values are binary blobs; in a `Vec` row only values that were
actually decrypted are re-encrypted, and non-encrypted values are left
entirely unchanged. -/
theorem claim_C2 (oldKey newKey : Nat) (ns ns1 : NonceSeq) (s s1 : Storage)
    (hwfn : (s.map Prod.fst).Nodup)
    (hwfk : ∀ t, (scanKeys s t).Nodup)
    (h : change_key oldKey newKey ns s = .ok (ns1, s1)) :
    (s1.map Prod.fst = s.map Prod.fst) ∧
    (∀ t, scanKeys s1 t = scanKeys s t) ∧
    (∀ t k row1, fetch_data s1 t k = some row1 →
      ∃ row nsA nsB, fetch_data s t k = some row ∧
        rotateRow oldKey newKey nsA row = .ok (nsB, row1)) ∧
    (∀ nsA nsB m m1, rotateEntriesLoop oldKey newKey nsA m = .ok (nsB, m1) →
      m1.map Prod.fst = m.map Prod.fst ∧ ∀ p ∈ m1, p.2.isBytea = true) ∧
    (∀ nsA nsB vs vs1, rotateValuesLoop oldKey newKey nsA vs =
        .ok (nsB, vs1) →
      List.Forall₂ (fun v v1 => (v.isBytea = false → v1 = v) ∧
        (v.isBytea = true → v1.isBytea = true)) vs vs1) := by
  unfold change_key at h
  obtain ⟨A, B, C, D⟩ :=
    changeKeyTables_spec oldKey newKey (s.map Prod.fst) ns s ns1 s1 h
      hwfn hwfk
  refine ⟨A, B, ?_, ?_, ?_⟩
  · intro t k row1 hfin
    by_cases ht : t ∈ s.map Prod.fst
    · exact D t ht k row1 hfin
    · exfalso
      simp only [fetch_data] at hfin
      cases hlt : lookupTable s1 t with
      | none => rw [hlt] at hfin; cases hfin
      | some tbl =>
        have hlt2 : lookupTable s t = some tbl := by
          rw [← C t ht]
          exact hlt
        exact ht (lookupTable_mem s t tbl hlt2)
  · intro nsA nsB m m1 hm
    exact rotateEntriesLoop_spec oldKey newKey m nsA nsB m1 hm
  · intro nsA nsB vs vs1 hv
    exact rotateValuesLoop_forall2 oldKey newKey vs nsA nsB vs1 hv

/-- Witness for amended C2 at a concrete input. -/
theorem claim_C2_witness :
    c2Out.2.map Prod.fst = ["t"] ∧ scanKeys c2Out.2 "t" = [0, 1] := by
  have hwfk : ∀ t, (scanKeys cexStore t).Nodup := by
    intro t
    by_cases ht : ("t" : String) = t
    · subst ht
      decide
    · simp [scanKeys, cexStore, lookupTable, ht]
  have h := claim_C2 0 1 nsZero c2Out.1 cexStore c2Out.2 (by decide) hwfk
    (by rfl)
  refine ⟨?_, ?_⟩
  · rw [h.1]
    rfl
  · rw [h.2.1]
    rfl

end GluesqlEncryption
